import Mathlib

/-!
Verification of the knowledge-graph store (memory-plugin server).

The Python store keeps, per graph level, three insertion-ordered dicts:
`nodes : id → node`, `edges : (from,to,rel) → edge`, and
`versions : key → {v, ts, session}`.  We embed each dict as an association
list together with dictionary operations `dget` (first-match lookup),
`dset` (replace-in-place or append, Python dict assignment), `dmodify`
(in-place value mutation of an existing entry) and `derase` (deletion).
Timestamps (`time.time()`) are passed explicitly as integers; float token
arithmetic in the source is integer arithmetic already, and percentile
scores are embedded as exact rationals.
-/

namespace KG

/-- First-match lookup, i.e. Python `d.get(k)` / `d[k]`. -/
def dget {α β : Type} [DecidableEq α] (k : α) : List (α × β) → Option β
  | [] => none
  | p :: ps => if p.1 = k then some p.2 else dget k ps

/-- Python dict assignment `d[k] = v`: replace the existing entry in place,
else append at the end. -/
def dset {α β : Type} [DecidableEq α] (k : α) (v : β) : List (α × β) → List (α × β)
  | [] => [(k, v)]
  | p :: ps => if p.1 = k then (k, v) :: ps else p :: dset k v ps

/-- In-place mutation of the value stored at `k` (first occurrence), as done by
`node["_archived"] = True` on a dict value obtained from the nodes dict. -/
def dmodify {α β : Type} [DecidableEq α] (k : α) (f : β → β) : List (α × β) → List (α × β)
  | [] => []
  | p :: ps => if p.1 = k then (p.1, f p.2) :: ps else p :: dmodify k f ps

/-- Python `del d[k]` (also total on absent keys, where the source guards
with `if k in d`). -/
def derase {α β : Type} [DecidableEq α] (k : α) (l : List (α × β)) : List (α × β) :=
  l.filter (fun p => decide (p.1 ≠ k))

theorem dget_dset_self {α β : Type} [DecidableEq α] (k : α) (v : β) (l : List (α × β)) :
    dget k (dset k v l) = some v := by
  induction l with
  | nil => simp [dget, dset]
  | cons p ps ih =>
    by_cases h : p.1 = k
    · simp [dget, dset, h]
    · simp [dget, dset, h, ih]

theorem dget_dset_ne {α β : Type} [DecidableEq α] (k k' : α) (v : β) (l : List (α × β))
    (h : k' ≠ k) : dget k (dset k' v l) = dget k l := by
  induction l with
  | nil => simp [dget, dset, h]
  | cons p ps ih =>
    by_cases hp : p.1 = k'
    · have hk : p.1 ≠ k := by rw [hp]; exact h
      simp only [dset, if_pos hp, dget, if_neg h, if_neg hk]
    · by_cases hk : p.1 = k
      · simp only [dset, if_neg hp, dget, if_pos hk]
      · simp only [dset, if_neg hp, dget, if_neg hk, ih]

theorem dget_derase_self {α β : Type} [DecidableEq α] (k : α) (l : List (α × β)) :
    dget k (derase k l) = none := by
  induction l with
  | nil => rfl
  | cons p ps ih =>
    by_cases h : p.1 = k
    · simpa [derase, h] using ih
    · simpa [derase, dget, h] using ih

theorem dget_derase_ne {α β : Type} [DecidableEq α] (k k' : α) (l : List (α × β))
    (h : k' ≠ k) : dget k (derase k' l) = dget k l := by
  induction l with
  | nil => rfl
  | cons p ps ih =>
    by_cases hp : p.1 = k'
    · have hk : p.1 ≠ k := by rw [hp]; exact h
      rw [derase, List.filter_cons_of_neg (by simp [hp])]
      rw [dget, if_neg hk]
      exact ih
    · rw [derase, List.filter_cons_of_pos (by simp [hp])]
      by_cases hk : p.1 = k
      · rw [dget, if_pos hk, dget, if_pos hk]
      · rw [dget, if_neg hk, dget, if_neg hk]
        exact ih

theorem dget_derase_none {α β : Type} [DecidableEq α] (k k' : α) (l : List (α × β))
    (h : dget k l = none) : dget k (derase k' l) = none := by
  by_cases hk : k' = k
  · rw [hk]; exact dget_derase_self k l
  · rw [dget_derase_ne k k' l hk]; exact h

theorem dget_dmodify_self {α β : Type} [DecidableEq α] (k : α) (f : β → β) (l : List (α × β)) :
    dget k (dmodify k f l) = (dget k l).map f := by
  induction l with
  | nil => rfl
  | cons p ps ih =>
    by_cases h : p.1 = k
    · simp [dget, dmodify, h]
    · simp [dget, dmodify, h, ih]

theorem dget_dmodify_ne {α β : Type} [DecidableEq α] (k k' : α) (f : β → β) (l : List (α × β))
    (h : k' ≠ k) : dget k (dmodify k' f l) = dget k l := by
  induction l with
  | nil => rfl
  | cons p ps ih =>
    by_cases hp : p.1 = k'
    · have hk : p.1 ≠ k := by rw [hp]; exact h
      simp only [dmodify, if_pos hp, dget, if_neg hk]
    · simp only [dmodify, if_neg hp]
      by_cases hk : p.1 = k
      · simp only [dget, if_pos hk]
      · simp only [dget, if_neg hk, ih]

theorem keys_dmodify {α β : Type} [DecidableEq α] (k : α) (f : β → β) (l : List (α × β)) :
    (dmodify k f l).map Prod.fst = l.map Prod.fst := by
  induction l with
  | nil => rfl
  | cons p ps ih =>
    by_cases h : p.1 = k
    · simp [dmodify, h]
    · simp [dmodify, h, ih]

theorem mem_of_dget_eq_some {α β : Type} [DecidableEq α] {k : α} {v : β} {l : List (α × β)}
    (h : dget k l = some v) : (k, v) ∈ l := by
  induction l with
  | nil => simp [dget] at h
  | cons p ps ih =>
    rw [dget] at h
    by_cases hp : p.1 = k
    · rw [if_pos hp] at h
      have hv := Option.some_inj.mp h
      have hpk : p = (k, v) := Prod.ext_iff.mpr ⟨hp, hv⟩
      rw [← hpk]
      exact List.mem_cons_self _ _
    · rw [if_neg hp] at h
      exact List.mem_cons_of_mem _ (ih h)

theorem dget_eq_some_of_mem_nodup {α β : Type} [DecidableEq α] {k : α} {v : β} {l : List (α × β)}
    (hmem : (k, v) ∈ l) (hnd : (l.map Prod.fst).Nodup) : dget k l = some v := by
  induction l with
  | nil => simp at hmem
  | cons p ps ih =>
    simp only [List.map_cons, List.nodup_cons] at hnd
    rcases List.mem_cons.mp hmem with h | h
    · rw [← h]; simp [dget]
    · have hk : p.1 ≠ k := by
        intro hcontra
        exact hnd.1 (hcontra ▸ (List.mem_map.mpr ⟨(k, v), h, rfl⟩))
      simp [dget, hk, ih h hnd.2]

theorem dget_isSome_iff {α β : Type} [DecidableEq α] (k : α) (l : List (α × β)) :
    (dget k l).isSome = true ↔ k ∈ l.map Prod.fst := by
  induction l with
  | nil => simp [dget]
  | cons p ps ih =>
    by_cases h : p.1 = k
    · simp [dget, h]
    · simp [dget, h, ih, Ne.symm h]

theorem dget_eq_none_iff {α β : Type} [DecidableEq α] (k : α) (l : List (α × β)) :
    dget k l = none ↔ k ∉ l.map Prod.fst := by
  rw [← dget_isSome_iff]
  cases dget k l <;> simp

theorem mem_dmodify {α β : Type} [DecidableEq α] {k : α} {f : β → β} {l : List (α × β)}
    {p : α × β} (h : p ∈ dmodify k f l) :
    p ∈ l ∨ ∃ v, (k, v) ∈ l ∧ p = (k, f v) := by
  induction l with
  | nil => simp [dmodify] at h
  | cons q qs ih =>
    by_cases hq : q.1 = k
    · simp only [dmodify, if_pos hq] at h
      rcases List.mem_cons.mp h with h1 | h1
      · right
        refine ⟨q.2, ?_, by rw [h1, hq]⟩
        have hqk : q = (k, q.2) := Prod.ext_iff.mpr ⟨hq, rfl⟩
        rw [← hqk]
        exact List.mem_cons_self _ _
      · left; exact List.mem_cons_of_mem _ h1
    · simp only [dmodify, if_neg hq] at h
      rcases List.mem_cons.mp h with h1 | h1
      · left; exact h1 ▸ List.mem_cons_self _ _
      · rcases ih h1 with h2 | ⟨v, hv, hp⟩
        · left; exact List.mem_cons_of_mem _ h2
        · right; exact ⟨v, List.mem_cons_of_mem _ hv, hp⟩

theorem mem_dset {α β : Type} [DecidableEq α] {k : α} {v : β} {l : List (α × β)}
    {p : α × β} (h : p ∈ dset k v l) : p = (k, v) ∨ p ∈ l := by
  induction l with
  | nil => simp [dset] at h; left; exact h
  | cons q qs ih =>
    by_cases hq : q.1 = k
    · simp only [dset, hq, if_pos] at h
      rcases List.mem_cons.mp h with h1 | h1
      · left; exact h1
      · right; exact List.mem_cons_of_mem _ h1
    · simp only [dset, hq, if_neg, not_false_iff] at h
      rcases List.mem_cons.mp h with h1 | h1
      · right; exact h1 ▸ List.mem_cons_self _ _
      · rcases ih h1 with h2 | h2
        · left; exact h2
        · right; exact List.mem_cons_of_mem _ h2

/-! ## Data model (src/memory-plugin/server/core/types.py, constants.py) -/

/-- `BASE_NODE_TOKENS`. -/
def baseNodeTokens : Nat := 20

/-- `CHARS_PER_TOKEN`. -/
def charsPerToken : Nat := 4

/-- `TOKENS_PER_EDGE`. -/
def tokensPerEdge : Nat := 15

/-- A node dict.  `archived` embeds presence of the `_archived` key (the source
only ever stores `True` there); `orphanedTs` embeds the `_orphaned_ts` key;
absent `touches`/`notes` keys are embedded as `[]`, which the source treats
identically (`node.get(..., [])`, and `put_node` skips falsy arguments). -/
structure Node where
  id : String
  gist : String
  touches : List String := []
  notes : List String := []
  archived : Bool := false
  orphanedTs : Option Int := none
deriving DecidableEq, Repr

/-- An edge dict; `fromRef` is the `from` field. -/
structure Edge where
  fromRef : String
  toRef : String
  rel : String
  notes : List String := []
deriving DecidableEq, Repr

/-- A version record `{v, ts, session}`; `ts`/`session` are optional so that
records loaded from disk may lack them (`ver.get("ts", default)`). -/
structure VersionRec where
  v : Nat
  ts : Option Int := none
  session : Option String := none
deriving DecidableEq, Repr

abbrev NodeMap := List (String × Node)
abbrev EdgeKey := String × String × String
abbrev EdgeMap := List (EdgeKey × Edge)
abbrev VersionMap := List (String × VersionRec)

/-- One graph level: the nodes dict, the edges dict (keyed by the
`(from,to,rel)` triple) and the level's version map. -/
structure LevelState where
  nodes : NodeMap := []
  edges : EdgeMap := []
  versions : VersionMap := []
deriving DecidableEq, Repr

/-- The closed error set raised by the store (`KGError` subclasses). -/
inductive KGError where
  | nodeNotFound (nid : String)
  | sessionUnknown (sid : String)
  | notArchivedErr (nid : String)
deriving DecidableEq, Repr

/-- `version_key_node`. -/
def versionKeyNode (nid : String) : String := "node:" ++ nid

/-- `version_key_edge`. -/
def versionKeyEdge (f t r : String) : String := "edge:" ++ f ++ "->" ++ t ++ ":" ++ r

def edgeVersionKey (e : Edge) : String := versionKeyEdge e.fromRef e.toRef e.rel

/-! ## Token estimator (core/estimator.py) -/

/-- `TokenEstimator.estimate_node`. -/
def estimateNode (n : Node) : Nat :=
  baseNodeTokens + n.gist.length / charsPerToken +
    (n.notes.map (fun s => s.length / charsPerToken)).sum

/-- `TokenEstimator.estimate_graph`. -/
def estimateGraph (nodes : NodeMap) (edges : EdgeMap) (includeArchived : Bool) : Nat :=
  (if includeArchived then (nodes.map (fun p => estimateNode p.2)).sum
   else ((nodes.filter (fun p => !p.2.archived)).map (fun p => estimateNode p.2)).sum)
  + edges.length * tokensPerEdge

/-! ## Node scorer (core/scorer.py) -/

/-- Incident-edge tally per node (`edge_count` accumulation). -/
def edgeCount (edges : EdgeMap) (nid : String) : Nat :=
  ((edges.map Prod.snd).countP (fun e => e.fromRef == nid)) +
  ((edges.map Prod.snd).countP (fun e => e.toRef == nid))

/-- One entry of the scorer's `eligible` list (the three raw measures). -/
structure EligItem where
  id : String
  recencyRaw : Int
  connRaw : Nat
  richRaw : Nat
deriving DecidableEq, Repr

/-- `versions.get(f"node:{id}", {}).get("ts", current_time)`. -/
def lastUpdateOf (versions : VersionMap) (now : Int) (nid : String) : Int :=
  ((dget (versionKeyNode nid) versions).bind VersionRec.ts).getD now

/-- The scorer's eligible collection: non-archived nodes past the grace
period. -/
def eligibleList (graceSeconds now : Int) (nodes : NodeMap) (edges : EdgeMap)
    (versions : VersionMap) : List EligItem :=
  nodes.filterMap (fun p =>
    if p.2.archived then none
    else if now - lastUpdateOf versions now p.1 < graceSeconds then none
    else some { id := p.1, recencyRaw := -(now - lastUpdateOf versions now p.1),
                connRaw := edgeCount edges p.1 + p.2.touches.length,
                richRaw := p.2.gist.length + (p.2.notes.map String.length).sum })

/-- `assign_percentiles`: the percentile of the item at original position `i`
under the given raw measure — its index in the stable ascending sort, divided
by `n − 1` (or `1/2` when `n = 1`).  Scores are exact rationals. -/
def pctOf (pairs : List (Nat × EligItem)) (key : EligItem → Int) (i : Nat) : ℚ :=
  if 1 < pairs.length then
    (((pairs.mergeSort (fun a b => decide (key a.2 ≤ key b.2))).findIdx (fun p => p.1 == i) : Int) : ℚ)
      / ((pairs.length : ℚ) - 1)
  else (1 : ℚ) / 2

/-- The index-annotated eligible items (the scorer works on the item objects;
the index stands for object identity). -/
def scorePairs (graceSeconds now : Int) (nodes : NodeMap) (edges : EdgeMap)
    (versions : VersionMap) : List (Nat × EligItem) :=
  (eligibleList graceSeconds now nodes edges versions).enum

/-- `NodeScorer.score_all`: product of the three percentiles per eligible
node. -/
def scoreAll (graceSeconds now : Int) (nodes : NodeMap) (edges : EdgeMap)
    (versions : VersionMap) : List (String × ℚ) :=
  if (eligibleList graceSeconds now nodes edges versions).isEmpty then []
  else
    (scorePairs graceSeconds now nodes edges versions).map (fun q =>
      (q.2.id,
        pctOf (scorePairs graceSeconds now nodes edges versions) EligItem.recencyRaw q.1 *
        pctOf (scorePairs graceSeconds now nodes edges versions) (fun it => (it.connRaw : Int)) q.1 *
        pctOf (scorePairs graceSeconds now nodes edges versions) (fun it => (it.richRaw : Int)) q.1))

/-! ## Compactor (core/compactor.py) -/

/-- `int(max_tokens * COMPACTION_TARGET_RATIO)` with the 0.9 factor as the
exact rational 9/10 (equal to the float computation over the realistic
non-negative `max_tokens` range). -/
def compactionTargetOf (maxTokens : Int) : Int := 9 * maxTokens / 10

def setArchivedTrue (n : Node) : Node := { n with archived := true }

/-- The archival loop of `compact_if_needed`: walk nodes in ascending score
order, archiving while the running estimate exceeds the target. -/
def archiveLoop (target : Int) :
    List (String × ℚ) → NodeMap → Int → List String → NodeMap × List String
  | [], nodes, _, acc => (nodes, acc.reverse)
  | q :: rest, nodes, est, acc =>
    if est ≤ target then (nodes, acc.reverse)
    else
      match dget q.1 nodes with
      | some n =>
        if n.archived then archiveLoop target rest nodes est acc
        else archiveLoop target rest (dmodify q.1 setArchivedTrue nodes)
               (est - (estimateNode n : Int)) (q.1 :: acc)
      | none => archiveLoop target rest nodes est acc

/-- `Compactor.compact_if_needed`; returns the updated nodes dict and the
archived-id list. -/
def compactIfNeeded (maxTokens graceSeconds now : Int) (nodes : NodeMap) (edges : EdgeMap)
    (versions : VersionMap) : NodeMap × List String :=
  if (estimateGraph nodes edges false : Int) ≤ maxTokens then (nodes, [])
  else if (scoreAll graceSeconds now nodes edges versions).isEmpty then (nodes, [])
  else archiveLoop (compactionTargetOf maxTokens)
         ((scoreAll graceSeconds now nodes edges versions).mergeSort
           (fun a b => decide (a.2 ≤ b.2)))
         nodes (estimateGraph nodes edges false : Int) []

/-! ## Store write/read operations (server.py, KnowledgeGraphStore) -/

/-- `_bump_version`. -/
def bumpVersion (versions : VersionMap) (key : String) (now : Int) (sid : Option String) :
    VersionMap :=
  dset key { v := ((dget key versions).map VersionRec.v).getD 0 + 1,
             ts := some now, session := sid } versions

/-- `put_node` on one level (level validation aside); returns the new state
and the `action` string. -/
def putNode (s : LevelState) (nid gist : String) (touches notes : List String)
    (sid : Option String) (now : Int) : LevelState × String :=
  let node : Node := { id := nid, gist := gist, touches := touches, notes := notes }
  let action := if (dget nid s.nodes).isSome then "updated" else "added"
  ({ s with nodes := dset nid node s.nodes,
            versions := bumpVersion s.versions (versionKeyNode nid) now sid }, action)

/-- `put_edge` on one level. -/
def putEdge (s : LevelState) (f t r : String) (notes : List String)
    (sid : Option String) (now : Int) : LevelState × String :=
  let e : Edge := { fromRef := f, toRef := t, rel := r, notes := notes }
  let action := if (dget (f, t, r) s.edges).isSome then "updated" else "added"
  ({ s with edges := dset (f, t, r) e s.edges,
            versions := bumpVersion s.versions (versionKeyEdge f t r) now sid }, action)

/-- `_delete_node_internal`: cascade-delete incident edges and all the
corresponding version records (no-op when the id is absent). -/
def deleteNodeInternal (s : LevelState) (nid : String) : LevelState :=
  if (dget nid s.nodes).isSome then
    let doomed := s.edges.filter (fun p => p.2.fromRef == nid || p.2.toRef == nid)
    let keptEdges := s.edges.filter (fun p => !(p.2.fromRef == nid || p.2.toRef == nid))
    let versions1 := doomed.foldl (fun vs p => derase (edgeVersionKey p.2) vs) s.versions
    { nodes := derase nid s.nodes, edges := keptEdges,
      versions := derase (versionKeyNode nid) versions1 }
  else s

/-- `delete_node`: raises *node not found* when absent (the untouched state is
returned alongside the error). -/
def deleteNode (s : LevelState) (nid : String) : LevelState × Option KGError :=
  if (dget nid s.nodes).isSome then (deleteNodeInternal s nid, none)
  else (s, some (KGError.nodeNotFound nid))

/-- `delete_edge` (soft: reports whether the edge existed). -/
def deleteEdge (s : LevelState) (f t r : String) : LevelState × Bool :=
  if (dget (f, t, r) s.edges).isSome then
    ({ s with edges := derase (f, t, r) s.edges,
              versions := derase (versionKeyEdge f t r) s.versions }, true)
  else (s, false)

/-- `recall`: the target must exist and be archived; clears `_archived` and
`_orphaned_ts` and bumps the node's version. -/
def recallNode (s : LevelState) (nid : String) (sid : Option String) (now : Int) :
    LevelState × Option KGError :=
  match dget nid s.nodes with
  | none => (s, some (KGError.nodeNotFound nid))
  | some n =>
    if n.archived then
      ({ s with
          nodes := dmodify nid (fun m => { m with archived := false, orphanedTs := none }) s.nodes,
          versions := bumpVersion s.versions (versionKeyNode nid) now sid }, none)
    else (s, some (KGError.notArchivedErr nid))

/-! ## Orphan pruner (server.py `_prune_orphans`) -/

/-- Membership of a reference in the `active_ids` set. -/
def isActive (nodes : NodeMap) (x : String) : Bool :=
  nodes.any (fun q => q.1 == x && !q.2.archived)

/-- Membership in the `reachable` set: some edge links this id to an active
node. -/
def isReachable (nodes : NodeMap) (edges : EdgeMap) (nid : String) : Bool :=
  edges.any (fun p =>
    (isActive nodes p.2.fromRef && p.2.toRef == nid) ||
    (isActive nodes p.2.toRef && p.2.fromRef == nid))

/-- The per-node marking step of the pruner (clear / start the orphan
timestamp). -/
def markOrphan (reach : Bool) (now : Int) (n : Node) : Node :=
  if !n.archived then n
  else if reach then { n with orphanedTs := none }
  else match n.orphanedTs with
    | none => { n with orphanedTs := some now }
    | some _ => n

/-- `now - node["_orphaned_ts"] > grace_seconds` (false when unset). -/
def orphanExpired (graceSeconds now : Int) (n : Node) : Bool :=
  match n.orphanedTs with
  | some t => decide (now - t > graceSeconds)
  | none => false

/-- The marking pass of the pruner over the nodes dict. -/
def pruneMarked (now : Int) (s : LevelState) : NodeMap :=
  s.nodes.map (fun p => (p.1, markOrphan (isReachable s.nodes s.edges p.1) now p.2))

/-- The `to_delete` collection (from the pre-marking node values). -/
def pruneToDelete (graceSeconds now : Int) (s : LevelState) : List String :=
  s.nodes.filterMap (fun p =>
    if p.2.archived && !isReachable s.nodes s.edges p.1 && orphanExpired graceSeconds now p.2
    then some p.1 else none)

/-- `_prune_orphans`: mark every archived node, then cascade-delete the
expired orphans collected from the pre-marking state. -/
def pruneOrphans (graceSeconds now : Int) (s : LevelState) : LevelState :=
  (pruneToDelete graceSeconds now s).foldl (fun st nid => deleteNodeInternal st nid)
    { s with nodes := pruneMarked now s }

/-! ## Read and sync paths (server.py `read` / `sync`) -/

/-- One level of the `read()` result. -/
structure ReadView where
  nodes : List Node
  edges : List Edge
deriving DecidableEq, Repr

/-- `read()` for one level: active nodes, and edges with at least one active
endpoint. -/
def readLevel (s : LevelState) : ReadView :=
  { nodes := (s.nodes.filter (fun p => !p.2.archived)).map Prod.snd,
    edges := (s.edges.map Prod.snd).filter
      (fun e => isActive s.nodes e.fromRef || isActive s.nodes e.toRef) }

/-- The node-inclusion test of `sync` for one node. -/
def syncNodeIncluded (versions : VersionMap) (startTs : Int) (sid : String) (excludeOwn : Bool)
    (nid : String) (n : Node) : Bool :=
  if n.archived then false
  else
    let ver := dget (versionKeyNode nid) versions
    if (ver.bind VersionRec.ts).getD 0 > startTs then
      !(excludeOwn && (ver.bind VersionRec.session) == some sid)
    else false

/-- The node changes of `sync` for one level. -/
def syncLevelNodes (s : LevelState) (startTs : Int) (sid : String) (excludeOwn : Bool) :
    List Node :=
  s.nodes.filterMap (fun p =>
    if syncNodeIncluded s.versions startTs sid excludeOwn p.1 p.2 then some p.2 else none)

/-- The edge changes of `sync` for one level. -/
def syncLevelEdges (s : LevelState) (startTs : Int) (sid : String) (excludeOwn : Bool) :
    List Edge :=
  (s.edges.map Prod.snd).filter (fun e =>
    (isActive s.nodes e.fromRef || isActive s.nodes e.toRef) &&
    (let ver := dget (edgeVersionKey e) s.versions
     decide ((ver.bind VersionRec.ts).getD 0 > startTs) &&
       !(excludeOwn && (ver.bind VersionRec.session) == some sid)))

/-- The value returned by `sync`. -/
structure SyncResult where
  sinceTs : Int
  userNodes : List Node
  userEdges : List Edge
  projectNodes : List Node
  projectEdges : List Edge
  totalChanges : Nat
deriving DecidableEq, Repr

/-- The whole store: the two levels and the session table. -/
structure Store where
  user : LevelState := {}
  project : LevelState := {}
  sessions : List (String × Int) := []
deriving DecidableEq, Repr

/-- `sync(session_id, exclude_own)`: unknown sessions fail; otherwise the
per-level diffs since the session's `start_ts`. -/
def syncStore (st : Store) (sid : String) (excludeOwn : Bool) : Except KGError SyncResult :=
  match dget sid st.sessions with
  | none => Except.error (KGError.sessionUnknown sid)
  | some startTs =>
    let un := syncLevelNodes st.user startTs sid excludeOwn
    let ue := syncLevelEdges st.user startTs sid excludeOwn
    let pn := syncLevelNodes st.project startTs sid excludeOwn
    let pe := syncLevelEdges st.project startTs sid excludeOwn
    Except.ok { sinceTs := startTs, userNodes := un, userEdges := ue,
                projectNodes := pn, projectEdges := pe,
                totalChanges := un.length + ue.length + pn.length + pe.length }

/-! ## Persistence load (core/persistence.py `GraphPersistence.load`)

The file system is embedded as the load's input: `none` = the path does not
exist; `some none` = the file exists but `json.load` (or any step before the
edge re-keying) raised; `some (some d)` = the document parsed into the shape
`{nodes, edges, _meta.versions}`.  A `KeyError` while re-keying an edge
(missing `from`/`to`/`rel`) is the remaining in-`try` failure and is modelled
inside `rekeyEdges`. -/

/-- An edge value as found on disk, before its `from`/`to`/`rel` fields are
checked. -/
structure RawEdge where
  fromField : Option String := none
  toField : Option String := none
  relField : Option String := none
  notes : List String := []
deriving DecidableEq, Repr

/-- A successfully parsed JSON document. -/
structure RawFile where
  nodes : List (String × Node) := []
  edges : List (String × RawEdge) := []
  versions : List (String × VersionRec) := []
deriving DecidableEq, Repr

/-- The edge re-keying loop: build the in-memory edges dict keyed by the
`(from,to,rel)` triple; `none` when some edge lacks a field. -/
def rekeyAux : List (String × RawEdge) → EdgeMap → Option EdgeMap
  | [], acc => some acc
  | p :: rest, acc =>
    match p.2.fromField, p.2.toField, p.2.relField with
    | some f, some t, some r =>
      rekeyAux rest (dset (f, t, r) { fromRef := f, toRef := t, rel := r, notes := p.2.notes } acc)
    | _, _, _ => none

def rekeyEdges (l : List (String × RawEdge)) : Option EdgeMap := rekeyAux l []

/-- `GraphPersistence.load`, total: every failure path yields the empty
level. -/
def loadLevel : Option (Option RawFile) → LevelState
  | none => {}
  | some none => {}
  | some (some d) =>
    match rekeyEdges d.edges with
    | none => {}
    | some es =>
      { nodes := d.nodes.filter (fun p => p.1 != "_meta"), edges := es, versions := d.versions }

/-! ## Reachable store states (the public operations of §4.8/§4.3/§4.4) -/

/-- The maintenance compaction applied to a level (`_maybe_compact`). -/
def applyCompact (maxTokens graceSeconds now : Int) (s : LevelState) : LevelState :=
  { s with nodes := (compactIfNeeded maxTokens graceSeconds now s.nodes s.edges s.versions).1 }

/-- One public mutation of a level. -/
inductive LStep : LevelState → LevelState → Prop
  | putN (s : LevelState) (nid gist : String) (touches notes : List String)
      (sid : Option String) (now : Int) : LStep s (putNode s nid gist touches notes sid now).1
  | putE (s : LevelState) (f t r : String) (notes : List String) (sid : Option String)
      (now : Int) : LStep s (putEdge s f t r notes sid now).1
  | delN (s : LevelState) (nid : String) : LStep s (deleteNode s nid).1
  | delE (s : LevelState) (f t r : String) : LStep s (deleteEdge s f t r).1
  | recallN (s : LevelState) (nid : String) (sid : Option String) (now : Int) :
      LStep s (recallNode s nid sid now).1
  | compactS (maxTokens graceSeconds now : Int) (s : LevelState) :
      LStep s (applyCompact maxTokens graceSeconds now s)
  | pruneS (graceSeconds now : Int) (s : LevelState) :
      LStep s (pruneOrphans graceSeconds now s)

/-- Level states reachable from the empty store by public operations. -/
inductive ReachableState : LevelState → Prop
  | empty : ReachableState {}
  | step {s s' : LevelState} : ReachableState s → LStep s s' → ReachableState s'

/-! ## Further dictionary lemmas -/

theorem dget_foldl_derase_none {α β γ : Type} [DecidableEq α] (f : γ → α) (k : α) :
    ∀ (l : List γ) (vs : List (α × β)), dget k vs = none →
      dget k (l.foldl (fun acc q => derase (f q) acc) vs) = none := by
  intro l
  induction l with
  | nil => intro vs h; simpa using h
  | cons q qs ih =>
    intro vs h
    rw [List.foldl_cons]
    exact ih _ (dget_derase_none _ _ _ h)

theorem dget_foldl_derase_of_mem {α β γ : Type} [DecidableEq α] (f : γ → α) :
    ∀ (l : List γ) (vs : List (α × β)) (x : γ), x ∈ l →
      dget (f x) (l.foldl (fun acc q => derase (f q) acc) vs) = none := by
  intro l
  induction l with
  | nil => intro vs x hx; simp at hx
  | cons q qs ih =>
    intro vs x hx
    rcases List.mem_cons.mp hx with h | h
    · subst h
      rw [List.foldl_cons]
      exact dget_foldl_derase_none f _ qs _ (dget_derase_self _ _)
    · rw [List.foldl_cons]
      exact ih _ x h

theorem dget_unique_of_nodup {α β : Type} [DecidableEq α] {k : α} {v w : β} {l : List (α × β)}
    (hv : (k, v) ∈ l) (hw : (k, w) ∈ l) (hnd : (l.map Prod.fst).Nodup) : v = w := by
  have h1 := dget_eq_some_of_mem_nodup hv hnd
  have h2 := dget_eq_some_of_mem_nodup hw hnd
  exact Option.some_inj.mp (h1 ▸ h2)

/-! ## C1 — put_node versus archived nodes -/

/-- The replacement semantics of `put_node`: the stored node is rebuilt from
scratch, so a previously archived node comes back active (`_archived` and
`_orphaned_ts` keys absent). -/
theorem put_node_replaces (s : LevelState) (nid gist : String) (touches notes : List String)
    (sid : Option String) (now : Int) :
    dget nid (putNode s nid gist touches notes sid now).1.nodes =
      some { id := nid, gist := gist, touches := touches, notes := notes,
             archived := false, orphanedTs := none } :=
  dget_dset_self nid _ s.nodes

/-- A concrete state with one archived, orphan-stamped node `n`. -/
def c1State : LevelState :=
  { nodes := [("n", { id := "n", gist := "g", archived := true, orphanedTs := some 5 })] }

/-- C1 fails on the code: after `put_node` on the archived node `n`, the
`_archived` flag is *not* still set (and `_orphaned_ts` is gone) — the node
silently returns to the active view. -/
theorem put_node_preserves_archive_cex :
    (dget "n" (putNode c1State "n" "g2" [] [] none 100).1.nodes).map Node.archived ≠
        some true ∧
      (dget "n" (putNode c1State "n" "g2" [] [] none 100).1.nodes).map Node.archived =
        some false ∧
      (dget "n" (putNode c1State "n" "g2" [] [] none 100).1.nodes).map Node.orphanedTs =
        some none := by
  refine ⟨?_, rfl, rfl⟩
  intro h
  simp [putNode, c1State, dget, dset] at h

/-! ## C5 — cascading delete -/

theorem deleteNodeInternal_eq (s : LevelState) (nid : String)
    (h : (dget nid s.nodes).isSome = true) :
    deleteNodeInternal s nid =
      { nodes := derase nid s.nodes,
        edges := s.edges.filter (fun p => !(p.2.fromRef == nid || p.2.toRef == nid)),
        versions := derase (versionKeyNode nid)
          ((s.edges.filter (fun p => p.2.fromRef == nid || p.2.toRef == nid)).foldl
            (fun vs p => derase (edgeVersionKey p.2) vs) s.versions) } := by
  rw [deleteNodeInternal, if_pos h]

theorem deleteNode_eq_of_present (s : LevelState) (nid : String)
    (h : (dget nid s.nodes).isSome = true) :
    deleteNode s nid = (deleteNodeInternal s nid, none) := by
  rw [deleteNode, if_pos h]

/-- `delete_node`: when the id exists, the node, every incident edge, and all
their version records are gone; when absent, the call fails with *node not
found* leaving the state unchanged. -/
theorem delete_node_spec (s : LevelState) (nid : String) :
    ((dget nid s.nodes).isSome = true →
      (deleteNode s nid).2 = none ∧
      dget nid (deleteNode s nid).1.nodes = none ∧
      (∀ p ∈ (deleteNode s nid).1.edges, ¬(p.2.fromRef = nid ∨ p.2.toRef = nid)) ∧
      dget (versionKeyNode nid) (deleteNode s nid).1.versions = none ∧
      (∀ p ∈ s.edges, (p.2.fromRef = nid ∨ p.2.toRef = nid) →
        dget (edgeVersionKey p.2) (deleteNode s nid).1.versions = none))
  ∧ (dget nid s.nodes = none →
      deleteNode s nid = (s, some (KGError.nodeNotFound nid))) := by
  constructor
  · intro h
    rw [deleteNode_eq_of_present s nid h, deleteNodeInternal_eq s nid h]
    refine ⟨rfl, dget_derase_self _ _, ?_, dget_derase_self _ _, ?_⟩
    · intro p hp
      simp only [List.mem_filter] at hp
      rcases hp with ⟨-, hcond⟩
      simp only [Bool.not_eq_true', Bool.or_eq_false_iff, beq_eq_false_iff_ne] at hcond
      rintro (h1 | h1)
      · exact hcond.1 h1
      · exact hcond.2 h1
    · intro p hp hinc
      apply dget_derase_none
      have hpm : p ∈ s.edges.filter (fun p => p.2.fromRef == nid || p.2.toRef == nid) := by
        simp only [List.mem_filter]
        refine ⟨hp, ?_⟩
        rcases hinc with h1 | h1 <;> simp [h1]
      exact dget_foldl_derase_of_mem (fun (q : EdgeKey × Edge) => edgeVersionKey q.2) _
        s.versions p hpm
  · intro h
    rw [deleteNode, if_neg (by simp [h])]

/-- A concrete witness state for `delete_node_spec`: node `a` with one
incident edge and version records for both. -/
def c5State : LevelState :=
  { nodes := [("a", { id := "a", gist := "g" }), ("b", { id := "b", gist := "h" })],
    edges := [(("a", "b", "uses"), { fromRef := "a", toRef := "b", rel := "uses" })],
    versions := [("node:a", { v := 1, ts := some 3 }),
                 ("edge:a->b:uses", { v := 1, ts := some 4 })] }

theorem delete_node_spec_witness :
    (dget "a" c5State.nodes).isSome = true ∧
    (deleteNode c5State "a").2 = none ∧
    dget "a" (deleteNode c5State "a").1.nodes = none ∧
    dget (versionKeyNode "a") (deleteNode c5State "a").1.versions = none := by
  have h := (delete_node_spec c5State "a").1 (by decide)
  exact ⟨by decide, h.1, h.2.1, h.2.2.2.1⟩

/-! ## C6 — recall semantics -/

/-- `recall`: *not found* iff the id is absent; *not archived* iff present and
active; success clears both internal flags and bumps the version to `v+1`
with `ts = now`; a failing call leaves the state untouched. -/
theorem recall_spec (s : LevelState) (nid : String) (sid : Option String) (now : Int) :
    ((recallNode s nid sid now).2 = some (KGError.nodeNotFound nid) ↔ dget nid s.nodes = none)
  ∧ ((recallNode s nid sid now).2 = some (KGError.notArchivedErr nid) ↔
      ∃ n, dget nid s.nodes = some n ∧ n.archived = false)
  ∧ (∀ n, dget nid s.nodes = some n → n.archived = true →
      (recallNode s nid sid now).2 = none ∧
      dget nid (recallNode s nid sid now).1.nodes =
        some { n with archived := false, orphanedTs := none } ∧
      dget (versionKeyNode nid) (recallNode s nid sid now).1.versions =
        some { v := ((dget (versionKeyNode nid) s.versions).map VersionRec.v).getD 0 + 1,
               ts := some now, session := sid })
  ∧ ((recallNode s nid sid now).2.isSome = true → (recallNode s nid sid now).1 = s) := by
  rcases hdg : dget nid s.nodes with - | n
  · refine ⟨by simp [recallNode, hdg], by simp [recallNode, hdg], ?_, by simp [recallNode, hdg]⟩
    intro m hm
    exact absurd hm (by simp)
  · by_cases ha : n.archived
    · refine ⟨by simp [recallNode, hdg, ha], by simp [recallNode, hdg, ha], ?_,
        by simp [recallNode, hdg, ha]⟩
      intro m hm harch
      have hnm : n = m := Option.some_inj.mp hm
      subst hnm
      refine ⟨by simp [recallNode, hdg, ha], ?_, ?_⟩
      · have h2 : dget nid (dmodify nid
            (fun m => { m with archived := false, orphanedTs := none }) s.nodes) =
            some { n with archived := false, orphanedTs := none } := by
          rw [dget_dmodify_self, hdg]; rfl
        simpa [recallNode, hdg, ha] using h2
      · have h3 : dget (versionKeyNode nid)
            (bumpVersion s.versions (versionKeyNode nid) now sid) =
            some { v := ((dget (versionKeyNode nid) s.versions).map VersionRec.v).getD 0 + 1,
                   ts := some now, session := sid } := dget_dset_self _ _ _
        simpa [recallNode, hdg, ha, bumpVersion] using h3
    · have haf : n.archived = false := by simpa using ha
      refine ⟨by simp [recallNode, hdg, haf], ?_, ?_, by simp [recallNode, hdg, haf]⟩
      · constructor
        · intro hx
          exact ⟨n, rfl, haf⟩
        · intro hx
          simp [recallNode, hdg, haf]
      · intro m hm harch
        have hnm : n = m := Option.some_inj.mp hm
        rw [← hnm] at harch
        rw [harch] at haf
        exact absurd haf (by decide)

/-- A concrete witness state for `recall_spec`: `x` archived with an orphan
stamp and version `v = 2`. -/
def c6State : LevelState :=
  { nodes := [("x", { id := "x", gist := "g", archived := true, orphanedTs := some 7 })],
    versions := [("node:x", { v := 2, ts := some 3, session := some "s1" })] }

theorem recall_spec_witness :
    dget "x" c6State.nodes =
      some { id := "x", gist := "g", archived := true, orphanedTs := some 7 } ∧
    (recallNode c6State "x" (some "s2") 50).2 = none ∧
    dget "x" (recallNode c6State "x" (some "s2") 50).1.nodes =
      some { id := "x", gist := "g", archived := false, orphanedTs := none } ∧
    dget (versionKeyNode "x") (recallNode c6State "x" (some "s2") 50).1.versions =
      some { v := 3, ts := some 50, session := some "s2" } := by
  have h := (recall_spec c6State "x" (some "s2") 50).2.2.1
    { id := "x", gist := "g", archived := true, orphanedTs := some 7 } (by decide) rfl
  exact ⟨by decide, h.1, h.2.1, h.2.2⟩

/-! ## C9 — persistence load -/

theorem rekeyAux_key_inv :
    ∀ (l : List (String × RawEdge)) (acc es : EdgeMap),
      (∀ q ∈ acc, q.1 = (q.2.fromRef, q.2.toRef, q.2.rel)) →
      rekeyAux l acc = some es →
      ∀ q ∈ es, q.1 = (q.2.fromRef, q.2.toRef, q.2.rel) := by
  intro l
  induction l with
  | nil =>
    intro acc es hacc heq
    rw [rekeyAux] at heq
    exact Option.some_inj.mp heq ▸ hacc
  | cons p rest ih =>
    intro acc es hacc heq
    rw [rekeyAux] at heq
    rcases hf : p.2.fromField with - | f <;> rcases ht : p.2.toField with - | t <;>
      rcases hr : p.2.relField with - | r <;> simp [hf, ht, hr] at heq
    refine ih _ es ?_ heq
    intro q hq
    rcases mem_dset hq with h1 | h1
    · rw [h1]
    · exact hacc q h1

/-- `GraphPersistence.load` never propagates a failure: a missing file or any
parse/processing exception yields the empty graph and empty versions, and a
successful parse yields the nodes, the edges re-keyed by their
`(from, to, rel)` triple, and the versions from `_meta.versions`. -/
theorem load_level_spec :
    loadLevel none = ({} : LevelState)
  ∧ loadLevel (some none) = ({} : LevelState)
  ∧ (∀ d : RawFile, rekeyEdges d.edges = none → loadLevel (some (some d)) = ({} : LevelState))
  ∧ (∀ (d : RawFile) (es : EdgeMap), rekeyEdges d.edges = some es →
      loadLevel (some (some d)) =
        { nodes := d.nodes.filter (fun p => p.1 != "_meta"), edges := es,
          versions := d.versions } ∧
      ∀ q ∈ es, q.1 = (q.2.fromRef, q.2.toRef, q.2.rel)) := by
  refine ⟨rfl, rfl, ?_, ?_⟩
  · intro d hd
    simp [loadLevel, hd]
  · intro d es hd
    refine ⟨by simp [loadLevel, hd], ?_⟩
    exact rekeyAux_key_inv d.edges [] es (by simp) hd

/-- A concrete well-formed raw file for `load_level_spec`. -/
def c9File : RawFile :=
  { nodes := [("a", { id := "a", gist := "g" })],
    edges := [("a->b:uses",
      { fromField := some "a", toField := some "b", relField := some "uses" })],
    versions := [("node:a", { v := 1, ts := some 2 })] }

theorem load_level_spec_witness :
    rekeyEdges c9File.edges =
      some [(("a", "b", "uses"), { fromRef := "a", toRef := "b", rel := "uses" })] ∧
    loadLevel (some (some c9File)) =
      { nodes := [("a", { id := "a", gist := "g" })],
        edges := [(("a", "b", "uses"), { fromRef := "a", toRef := "b", rel := "uses" })],
        versions := [("node:a", { v := 1, ts := some 2 })] } := by
  have h := load_level_spec.2.2.2 c9File
    [(("a", "b", "uses"), { fromRef := "a", toRef := "b", rel := "uses" })] (by decide)
  refine ⟨by decide, ?_⟩
  rw [h.1]
  decide

/-! ## Scorer lemmas -/

theorem eligible_id_mem {graceSeconds now : Int} {nodes : NodeMap} {edges : EdgeMap}
    {versions : VersionMap} {nid : String}
    (h : nid ∈ (eligibleList graceSeconds now nodes edges versions).map EligItem.id) :
    ∃ n, (nid, n) ∈ nodes ∧ n.archived = false ∧
      ¬(now - lastUpdateOf versions now nid < graceSeconds) := by
  rw [List.mem_map] at h
  obtain ⟨it, hit, hid⟩ := h
  rw [eligibleList, List.mem_filterMap] at hit
  obtain ⟨p, hp, hf⟩ := hit
  by_cases ha : p.2.archived
  · rw [if_pos ha] at hf
    exact absurd hf (by simp)
  · rw [if_neg ha] at hf
    by_cases hage : now - lastUpdateOf versions now p.1 < graceSeconds
    · rw [if_pos hage] at hf
      exact absurd hf (by simp)
    · rw [if_neg hage] at hf
      have hit2 := Option.some_inj.mp hf
      have hp1 : p.1 = nid := by rw [← hid, ← hit2]
      refine ⟨p.2, ?_, by simpa using ha, by rwa [hp1] at hage⟩
      rw [← hp1]
      exact hp

theorem scoreAll_keys (graceSeconds now : Int) (nodes : NodeMap) (edges : EdgeMap)
    (versions : VersionMap) :
    (scoreAll graceSeconds now nodes edges versions).map Prod.fst =
      (eligibleList graceSeconds now nodes edges versions).map EligItem.id := by
  rw [scoreAll]
  by_cases he : (eligibleList graceSeconds now nodes edges versions).isEmpty
  · rw [if_pos he]
    have he' : eligibleList graceSeconds now nodes edges versions = [] :=
      List.isEmpty_iff.mp he
    simp [he']
  · rw [if_neg he]
    conv_rhs => rw [← List.enum_map_snd (eligibleList graceSeconds now nodes edges versions)]
    rw [List.map_map, List.map_map]
    rfl

theorem archiveLoop_dget_not_mem (target : Int) :
    ∀ (pending : List (String × ℚ)) (nodes : NodeMap) (est : Int) (acc : List String)
      (k : String), k ∉ pending.map Prod.fst →
      dget k (archiveLoop target pending nodes est acc).1 = dget k nodes := by
  intro pending
  induction pending with
  | nil => intro nodes est acc k hk; rfl
  | cons q rest ih =>
    intro nodes est acc k hk
    simp only [List.map_cons, List.mem_cons, not_or] at hk
    by_cases hb : est ≤ target
    · simp [archiveLoop, hb]
    · rcases hdq : dget q.1 nodes with - | n
      · simp only [archiveLoop, if_neg hb, hdq]
        exact ih _ _ _ k hk.2
      · by_cases ha : n.archived
        · simp only [archiveLoop, if_neg hb, hdq, if_pos ha]
          exact ih _ _ _ k hk.2
        · simp only [archiveLoop, if_neg hb, hdq, if_neg ha]
          rw [ih _ _ _ k hk.2]
          exact dget_dmodify_ne k q.1 _ nodes (fun hc => hk.1 hc.symm)

theorem compact_preserves_not_scored (maxTokens graceSeconds now : Int) (nodes : NodeMap)
    (edges : EdgeMap) (versions : VersionMap) (nid : String)
    (h : nid ∉ (scoreAll graceSeconds now nodes edges versions).map Prod.fst) :
    dget nid (compactIfNeeded maxTokens graceSeconds now nodes edges versions).1 =
      dget nid nodes := by
  rw [compactIfNeeded]
  by_cases h1 : (estimateGraph nodes edges false : Int) ≤ maxTokens
  · rw [if_pos h1]
  · rw [if_neg h1]
    by_cases h2 : (scoreAll graceSeconds now nodes edges versions).isEmpty
    · rw [if_pos h2]
    · rw [if_neg h2]
      apply archiveLoop_dget_not_mem
      intro hmem
      apply h
      have hperm := (List.mergeSort_perm (scoreAll graceSeconds now nodes edges versions)
        (fun a b => decide (a.2 ≤ b.2))).map Prod.fst
      exact hperm.mem_iff.mp hmem

/-! ## C3 — grace protection -/

/-- Grace protection: a node whose version timestamp is inside the grace
window never appears in the scorer's output, and the compactor leaves its
entry untouched. -/
theorem grace_protection (graceSeconds now maxTokens : Int) (nodes : NodeMap)
    (edges : EdgeMap) (versions : VersionMap) (nid : String) (ver : VersionRec) (t : Int)
    (hv : dget (versionKeyNode nid) versions = some ver) (hts : ver.ts = some t)
    (hgrace : t > now - graceSeconds) :
    nid ∉ (scoreAll graceSeconds now nodes edges versions).map Prod.fst ∧
    dget nid (compactIfNeeded maxTokens graceSeconds now nodes edges versions).1 =
      dget nid nodes := by
  have hlu : lastUpdateOf versions now nid = t := by
    simp [lastUpdateOf, hv, hts]
  have hage : now - lastUpdateOf versions now nid < graceSeconds := by omega
  have hscore : nid ∉ (scoreAll graceSeconds now nodes edges versions).map Prod.fst := by
    rw [scoreAll_keys]
    intro hmem
    obtain ⟨n, -, -, hno⟩ := eligible_id_mem hmem
    exact hno hage
  exact ⟨hscore, compact_preserves_not_scored _ _ _ _ _ _ _ hscore⟩

/-- A fresh node for the grace-protection witness: updated at `ts = 999`,
`now = 1000`, grace 7 days. -/
def c3Versions : VersionMap := [("node:a", { v := 1, ts := some 999 })]

def c3Nodes : NodeMap := [("a", { id := "a", gist := "gg" })]

theorem grace_protection_witness :
    "a" ∉ (scoreAll 604800 1000 c3Nodes [] c3Versions).map Prod.fst ∧
    dget "a" (compactIfNeeded 5000 604800 1000 c3Nodes [] c3Versions).1 =
      dget "a" c3Nodes :=
  grace_protection 604800 1000 5000 c3Nodes [] c3Versions "a"
    { v := 1, ts := some 999 } 999 (by decide) rfl (by decide)

/-! ## C10 — nodes without a version timestamp are grace-protected -/

/-- A node with no version record (or a record without `ts`) is treated as
just-updated: it is absent from the scorer's output and the compactor leaves
it untouched (grace period positive, as in every configuration `days ≥ 1`). -/
theorem missing_version_protected (graceSeconds now maxTokens : Int) (nodes : NodeMap)
    (edges : EdgeMap) (versions : VersionMap) (nid : String)
    (hg : 0 < graceSeconds)
    (hv : (dget (versionKeyNode nid) versions).bind VersionRec.ts = none) :
    nid ∉ (scoreAll graceSeconds now nodes edges versions).map Prod.fst ∧
    dget nid (compactIfNeeded maxTokens graceSeconds now nodes edges versions).1 =
      dget nid nodes := by
  have hlu : lastUpdateOf versions now nid = now := by
    simp [lastUpdateOf, hv]
  have hage : now - lastUpdateOf versions now nid < graceSeconds := by omega
  have hscore : nid ∉ (scoreAll graceSeconds now nodes edges versions).map Prod.fst := by
    rw [scoreAll_keys]
    intro hmem
    obtain ⟨n, -, -, hno⟩ := eligible_id_mem hmem
    exact hno hage
  exact ⟨hscore, compact_preserves_not_scored _ _ _ _ _ _ _ hscore⟩

def c10Nodes : NodeMap := [("b", { id := "b", gist := "hh" })]

theorem missing_version_protected_witness :
    "b" ∉ (scoreAll 604800 5000 c10Nodes [] []).map Prod.fst ∧
    dget "b" (compactIfNeeded 10 604800 5000 c10Nodes [] []).1 = dget "b" c10Nodes :=
  missing_version_protected 604800 5000 10 c10Nodes [] [] "b" (by decide) rfl

/-! ## C2 — compaction convergence -/

/-- The active-node part of `estimate_graph`. -/
def activeSum (l : NodeMap) : Nat :=
  ((l.filter (fun p => !p.2.archived)).map (fun p => estimateNode p.2)).sum

theorem estimateGraph_eq (nodes : NodeMap) (edges : EdgeMap) :
    estimateGraph nodes edges false = activeSum nodes + edges.length * tokensPerEdge := rfl

theorem activeSum_cons (p : String × Node) (ps : NodeMap) :
    activeSum (p :: ps) = (if p.2.archived then 0 else estimateNode p.2) + activeSum ps := by
  by_cases h : p.2.archived <;> simp [activeSum, h]

theorem estimateNode_le_activeSum {nid : String} {n : Node} {l : NodeMap}
    (hmem : (nid, n) ∈ l) (ha : n.archived = false) :
    estimateNode n ≤ activeSum l := by
  induction l with
  | nil => simp at hmem
  | cons p ps ih =>
    rw [activeSum_cons]
    rcases List.mem_cons.mp hmem with h | h
    · rw [← h]
      simp [ha]
    · exact le_trans (ih h) (Nat.le_add_left _ _)

theorem activeSum_archive {nid : String} {n : Node} {l : NodeMap}
    (hmem : (nid, n) ∈ l) (hnd : (l.map Prod.fst).Nodup) (ha : n.archived = false) :
    activeSum (dmodify nid setArchivedTrue l) = activeSum l - estimateNode n := by
  induction l with
  | nil => simp at hmem
  | cons p ps ih =>
    simp only [List.map_cons, List.nodup_cons] at hnd
    by_cases hp : p.1 = nid
    · have hpn : p = (nid, n) := by
        rcases List.mem_cons.mp hmem with h | h
        · exact h.symm
        · exact absurd (by rw [hp]; exact List.mem_map.mpr ⟨(nid, n), h, rfl⟩) hnd.1
      rw [hpn]
      rw [show dmodify nid setArchivedTrue ((nid, n) :: ps) = (nid, setArchivedTrue n) :: ps
        from by simp [dmodify]]
      rw [activeSum_cons, activeSum_cons]
      simp [setArchivedTrue, ha]
    · have hmem' : (nid, n) ∈ ps := by
        rcases List.mem_cons.mp hmem with h | h
        · exact absurd (congrArg Prod.fst h.symm) hp
        · exact h
      rw [show dmodify nid setArchivedTrue (p :: ps) = p :: dmodify nid setArchivedTrue ps
        from by simp [dmodify, hp]]
      rw [activeSum_cons, activeSum_cons, ih hmem' hnd.2]
      have hc := estimateNode_le_activeSum hmem' ha
      omega

theorem archiveLoop_mono_archived (target : Int) :
    ∀ (pending : List (String × ℚ)) (nodes : NodeMap) (est : Int) (acc : List String)
      (k : String) (n : Node), dget k nodes = some n → n.archived = true →
      dget k (archiveLoop target pending nodes est acc).1 = some n := by
  intro pending
  induction pending with
  | nil => intro nodes est acc k n h ha; exact h
  | cons q rest ih =>
    intro nodes est acc k n h ha
    by_cases hb : est ≤ target
    · simp only [archiveLoop, if_pos hb]
      exact h
    · rcases hdq : dget q.1 nodes with - | m
      · simp only [archiveLoop, if_neg hb, hdq]
        exact ih _ _ _ k n h ha
      · by_cases ham : m.archived
        · simp only [archiveLoop, if_neg hb, hdq, if_pos ham]
          exact ih _ _ _ k n h ha
        · simp only [archiveLoop, if_neg hb, hdq, if_neg ham]
          by_cases hkq : q.1 = k
          · exfalso
            rw [hkq, h] at hdq
            rw [← Option.some_inj.mp hdq] at ham
            exact ham ha
          · refine ih _ _ _ k n ?_ ha
            rw [dget_dmodify_ne k q.1 _ nodes hkq]
            exact h

theorem archiveLoop_main (target : Int) (edges : EdgeMap) :
    ∀ (pending : List (String × ℚ)) (nodes : NodeMap) (est : Int) (acc : List String),
      est = (estimateGraph nodes edges false : Int) →
      (nodes.map Prod.fst).Nodup →
      ((estimateGraph (archiveLoop target pending nodes est acc).1 edges false : Int) ≤ target
       ∨ ∀ q ∈ pending, ∀ n, dget q.1 nodes = some n → n.archived = false →
           ∃ m, dget q.1 (archiveLoop target pending nodes est acc).1 = some m ∧
                m.archived = true) := by
  intro pending
  induction pending with
  | nil =>
    intro nodes est acc hest hnd
    right
    intro q hq
    exact absurd hq (List.not_mem_nil q)
  | cons q rest ih =>
    intro nodes est acc hest hnd
    by_cases hb : est ≤ target
    · left
      simp only [archiveLoop, if_pos hb]
      show (estimateGraph nodes edges false : Int) ≤ target
      rw [← hest]
      exact hb
    · rcases hdq : dget q.1 nodes with - | n
      · simp only [archiveLoop, if_neg hb, hdq]
        rcases ih nodes est acc hest hnd with h1 | h2
        · left; exact h1
        · right
          intro p hp m hm hma
          rcases List.mem_cons.mp hp with h | h
          · rw [h, hdq] at hm
            exact absurd hm (by simp)
          · exact h2 p h m hm hma
      · by_cases han : n.archived
        · simp only [archiveLoop, if_neg hb, hdq, if_pos han]
          rcases ih nodes est acc hest hnd with h1 | h2
          · left; exact h1
          · right
            intro p hp m hm hma
            rcases List.mem_cons.mp hp with h | h
            · rw [h, hdq] at hm
              rw [← Option.some_inj.mp hm] at hma
              rw [han] at hma
              exact absurd hma (by decide)
            · exact h2 p h m hm hma
        · have hna : n.archived = false := by simpa using han
          have hmem := mem_of_dget_eq_some hdq
          have hcost := estimateNode_le_activeSum hmem hna
          have hest' : (estimateGraph (dmodify q.1 setArchivedTrue nodes) edges false : Int) =
              est - (estimateNode n : Int) := by
            rw [hest, estimateGraph_eq, estimateGraph_eq, activeSum_archive hmem hnd hna]
            omega
          have hnd' : ((dmodify q.1 setArchivedTrue nodes).map Prod.fst).Nodup := by
            rw [keys_dmodify]
            exact hnd
          simp only [archiveLoop, if_neg hb, hdq, if_neg han]
          rcases ih (dmodify q.1 setArchivedTrue nodes) (est - (estimateNode n : Int))
            (q.1 :: acc) hest'.symm hnd' with h1 | h2
          · left; exact h1
          · right
            intro p hp m hm hma
            by_cases hpq : p.1 = q.1
            · have hdq' : dget p.1 (dmodify q.1 setArchivedTrue nodes) =
                  some (setArchivedTrue n) := by
                rw [hpq, dget_dmodify_self, hdq]
                rfl
              exact ⟨setArchivedTrue n,
                archiveLoop_mono_archived target rest _ _ _ p.1 (setArchivedTrue n) hdq' rfl,
                rfl⟩
            · have hprest : p ∈ rest := by
                rcases List.mem_cons.mp hp with h | h
                · exact absurd (congrArg Prod.fst h) hpq
                · exact h
              have hm' : dget p.1 (dmodify q.1 setArchivedTrue nodes) = some m := by
                rw [dget_dmodify_ne p.1 q.1 _ nodes (fun hc => hpq hc.symm)]
                exact hm
              exact h2 p hprest m hm' hma

/-- Compaction convergence, amended: *when the initial estimate exceeds
`max_tokens`*, the call either brings the active estimate at or below
`floor(max_tokens × 0.9)` or archives every node in the scorer's output; when
the initial estimate is at most `max_tokens`, the call returns `[]` and
archives nothing. -/
theorem compact_convergence (maxTokens graceSeconds now : Int) (nodes : NodeMap)
    (edges : EdgeMap) (versions : VersionMap) (hnd : (nodes.map Prod.fst).Nodup) :
    (maxTokens < (estimateGraph nodes edges false : Int) →
      ((estimateGraph (compactIfNeeded maxTokens graceSeconds now nodes edges versions).1
          edges false : Int) ≤ compactionTargetOf maxTokens
       ∨ ∀ nid ∈ (scoreAll graceSeconds now nodes edges versions).map Prod.fst,
           ∃ m, dget nid (compactIfNeeded maxTokens graceSeconds now nodes edges versions).1 =
                  some m ∧ m.archived = true))
  ∧ ((estimateGraph nodes edges false : Int) ≤ maxTokens →
      compactIfNeeded maxTokens graceSeconds now nodes edges versions = (nodes, [])) := by
  constructor
  · intro hover
    rw [compactIfNeeded, if_neg (by omega)]
    by_cases h2 : (scoreAll graceSeconds now nodes edges versions).isEmpty
    · rw [if_pos h2]
      right
      intro nid hmem
      rw [List.isEmpty_iff.mp h2] at hmem
      simp at hmem
    · rw [if_neg h2]
      rcases archiveLoop_main (compactionTargetOf maxTokens) edges
          ((scoreAll graceSeconds now nodes edges versions).mergeSort
            (fun a b => decide (a.2 ≤ b.2))) nodes
          (estimateGraph nodes edges false : Int) [] rfl hnd with h1 | h3
      · left; exact h1
      · right
        intro nid hmem
        have hel : nid ∈ (eligibleList graceSeconds now nodes edges versions).map EligItem.id := by
          rw [← scoreAll_keys]
          exact hmem
        obtain ⟨n, hn, hna, -⟩ := eligible_id_mem hel
        have hdg : dget nid nodes = some n := dget_eq_some_of_mem_nodup hn hnd
        have hmem2 : nid ∈ ((scoreAll graceSeconds now nodes edges versions).mergeSort
            (fun a b => decide (a.2 ≤ b.2))).map Prod.fst := by
          have hperm := (List.mergeSort_perm (scoreAll graceSeconds now nodes edges versions)
            (fun a b => decide (a.2 ≤ b.2))).map Prod.fst
          exact hperm.mem_iff.mpr hmem
        rw [List.mem_map] at hmem2
        obtain ⟨p, hp, hp1⟩ := hmem2
        have hres := h3 p hp n (by rw [hp1]; exact hdg) hna
        rw [hp1] at hres
        exact hres
  · intro hle
    rw [compactIfNeeded, if_pos hle]

/-- One 20-token node plus five 15-token edges: the graph estimates to 95
tokens. -/
def c2Nodes : NodeMap := [("a", { id := "a", gist := "gg" })]

def c2Edges : EdgeMap :=
  [(("a", "b1", "r"), { fromRef := "a", toRef := "b1", rel := "r" }),
   (("a", "b2", "r"), { fromRef := "a", toRef := "b2", rel := "r" }),
   (("a", "b3", "r"), { fromRef := "a", toRef := "b3", rel := "r" }),
   (("a", "b4", "r"), { fromRef := "a", toRef := "b4", rel := "r" }),
   (("a", "b5", "r"), { fromRef := "a", toRef := "b5", rel := "r" })]

def c2Versions : VersionMap := [("node:a", { v := 1, ts := some 0 })]

/-- C2 fails on the code as stated: with `max_tokens = 100` the 95-token
graph is left alone (early return), yet the estimate `95` exceeds the target
`floor(0.9 × 100) = 90` and the single node "a" is in the scorer's output and
is not archived — so neither disjunct of the claimed post-condition holds. -/
theorem compact_convergence_cex :
    (estimateGraph c2Nodes c2Edges false : Int) ≤ 100 ∧
    compactIfNeeded 100 100 1000000 c2Nodes c2Edges c2Versions = (c2Nodes, []) ∧
    compactionTargetOf 100 < (estimateGraph c2Nodes c2Edges false : Int) ∧
    "a" ∈ (scoreAll 100 1000000 c2Nodes c2Edges c2Versions).map Prod.fst ∧
    (dget "a" c2Nodes).map Node.archived = some false := by
  decide

theorem compact_convergence_witness :
    (c2Nodes.map Prod.fst).Nodup ∧
    (50 < (estimateGraph c2Nodes c2Edges false : Int)) ∧
    ((estimateGraph (compactIfNeeded 50 100 1000000 c2Nodes c2Edges c2Versions).1
        c2Edges false : Int) ≤ compactionTargetOf 50
      ∨ ∀ nid ∈ (scoreAll 100 1000000 c2Nodes c2Edges c2Versions).map Prod.fst,
          ∃ m, dget nid (compactIfNeeded 50 100 1000000 c2Nodes c2Edges c2Versions).1 = some m ∧
               m.archived = true) :=
  ⟨by decide, by decide,
    (compact_convergence 50 100 1000000 c2Nodes c2Edges c2Versions (by decide)).1 (by decide)⟩

/-! ## C4 — sync semantics -/

theorem syncNodeIncluded_eq (versions : VersionMap) (startTs : Int) (sid : String)
    (nid : String) (n : Node) (ver : VersionRec) (t : Int)
    (hv : dget (versionKeyNode nid) versions = some ver) (hts : ver.ts = some t) :
    syncNodeIncluded versions startTs sid true nid n =
      (!n.archived && decide (t > startTs) && !(ver.session == some sid)) := by
  rw [syncNodeIncluded]
  by_cases ha : n.archived
  · simp [ha]
  · by_cases hgt : t > startTs
    · simp [ha, hv, hts, hgt]
    · simp [ha, hv, hts, hgt]

theorem syncLevelNodes_mem (s : LevelState) (startTs : Int) (sid : String) (nid : String)
    (n : Node) (ver : VersionRec) (t : Int)
    (hwf : ∀ p ∈ s.nodes, p.2.id = p.1) (hmem : (nid, n) ∈ s.nodes)
    (hv : dget (versionKeyNode nid) s.versions = some ver) (hts : ver.ts = some t) :
    n ∈ syncLevelNodes s startTs sid true ↔
      (n.archived = false ∧ t > startTs ∧ ver.session ≠ some sid) := by
  have hnid : n.id = nid := hwf (nid, n) hmem
  constructor
  · intro h
    rw [syncLevelNodes, List.mem_filterMap] at h
    obtain ⟨p, hp, hf⟩ := h
    by_cases hinc : syncNodeIncluded s.versions startTs sid true p.1 p.2 = true
    · rw [if_pos hinc] at hf
      have hpn : p.2 = n := Option.some_inj.mp hf
      have hp1 : p.1 = nid := by rw [← hwf p hp, hpn, hnid]
      rw [hp1, hpn, syncNodeIncluded_eq s.versions startTs sid nid n ver t hv hts] at hinc
      simp only [Bool.and_eq_true, Bool.not_eq_true', beq_eq_false_iff_ne,
        decide_eq_true_eq] at hinc
      exact ⟨hinc.1.1, hinc.1.2, hinc.2⟩
    · rw [if_neg hinc] at hf
      exact absurd hf (by simp)
  · rintro ⟨h1, h2, h3⟩
    rw [syncLevelNodes, List.mem_filterMap]
    refine ⟨(nid, n), hmem, ?_⟩
    have hinc : syncNodeIncluded s.versions startTs sid true nid n = true := by
      rw [syncNodeIncluded_eq s.versions startTs sid nid n ver t hv hts]
      simp [h1, h2, h3]
    simp [hinc]

/-- `sync(session_id, exclude_own=true)`: an unknown session fails with the
unknown-session error; otherwise, for each level, a node with a versioned
timestamp appears in the returned changes iff it is not archived, its version
`ts` is after the session's `start_ts`, and its version's writer session
differs from `session_id`. -/
theorem sync_spec (st : Store) (sid : String) :
    (dget sid st.sessions = none →
      syncStore st sid true = Except.error (KGError.sessionUnknown sid))
  ∧ (∀ startTs, dget sid st.sessions = some startTs →
      ∀ res, syncStore st sid true = Except.ok res →
        (∀ nid n ver t, (∀ p ∈ st.user.nodes, p.2.id = p.1) → (nid, n) ∈ st.user.nodes →
           dget (versionKeyNode nid) st.user.versions = some ver → ver.ts = some t →
           (n ∈ res.userNodes ↔
             (n.archived = false ∧ t > startTs ∧ ver.session ≠ some sid)))
      ∧ (∀ nid n ver t, (∀ p ∈ st.project.nodes, p.2.id = p.1) → (nid, n) ∈ st.project.nodes →
           dget (versionKeyNode nid) st.project.versions = some ver → ver.ts = some t →
           (n ∈ res.projectNodes ↔
             (n.archived = false ∧ t > startTs ∧ ver.session ≠ some sid)))) := by
  constructor
  · intro h
    simp only [syncStore, h]
  · intro startTs hs res hres
    simp only [syncStore, hs] at hres
    have hres' := Except.ok.inj hres
    constructor
    · intro nid n ver t hwf hmem hv hts
      rw [← hres']
      exact syncLevelNodes_mem st.user startTs sid nid n ver t hwf hmem hv hts
    · intro nid n ver t hwf hmem hv hts
      rw [← hres']
      exact syncLevelNodes_mem st.project startTs sid nid n ver t hwf hmem hv hts

/-- A two-session scenario: session `s1` started at 10; node `x` written at
20 by session `s2`. -/
def c4Store : Store :=
  { user := { nodes := [("x", { id := "x", gist := "v1" })],
              versions := [("node:x", { v := 1, ts := some 20, session := some "s2" })] },
    project := {},
    sessions := [("s1", 10)] }

def c4Res : SyncResult :=
  { sinceTs := 10, userNodes := [{ id := "x", gist := "v1" }], userEdges := [],
    projectNodes := [], projectEdges := [], totalChanges := 1 }

theorem sync_spec_witness :
    syncStore c4Store "zz" true = Except.error (KGError.sessionUnknown "zz") ∧
    (({ id := "x", gist := "v1" } : Node) ∈ c4Res.userNodes ↔
      ((({ id := "x", gist := "v1" } : Node).archived = false) ∧ ((20 : Int) > 10) ∧
        (some "s2" ≠ some "s1"))) := by
  refine ⟨(sync_spec c4Store "zz").1 (by decide), ?_⟩
  have h := ((sync_spec c4Store "s1").2 10 (by decide) c4Res rfl).1
    "x" { id := "x", gist := "v1" } { v := 1, ts := some 20, session := some "s2" } 20
    (by decide) (by decide) (by decide) rfl
  exact h

/-! ## C7 — orphan pruning -/

theorem dget_map_keyed {α β : Type} [DecidableEq α] (g : α → β → β) (k : α) :
    ∀ l : List (α × β), dget k (l.map (fun p => (p.1, g p.1 p.2))) = (dget k l).map (g k) := by
  intro l
  induction l with
  | nil => rfl
  | cons p ps ih =>
    by_cases h : p.1 = k
    · simp [dget, h]
    · simp [dget, h, ih]

theorem delete_internal_preserves_none (st : LevelState) (i k : String)
    (h : dget k st.nodes = none) : dget k (deleteNodeInternal st i).nodes = none := by
  by_cases hp : (dget i st.nodes).isSome
  · simp only [deleteNodeInternal, if_pos hp]
    exact dget_derase_none _ _ _ h
  · simp only [deleteNodeInternal, if_neg hp]
    exact h

theorem dget_foldl_delete_ne :
    ∀ (ids : List String) (st : LevelState) (k : String), (∀ i ∈ ids, i ≠ k) →
      dget k (ids.foldl (fun st nid => deleteNodeInternal st nid) st).nodes =
        dget k st.nodes := by
  intro ids
  induction ids with
  | nil => intro st k h; rfl
  | cons i is ih =>
    intro st k h
    rw [List.foldl_cons, ih _ k (fun j hj => h j (List.mem_cons_of_mem _ hj))]
    by_cases hp : (dget i st.nodes).isSome
    · simp only [deleteNodeInternal, if_pos hp]
      exact dget_derase_ne k i st.nodes (h i (List.mem_cons_self _ _))
    · simp only [deleteNodeInternal, if_neg hp]

theorem dget_foldl_delete_none :
    ∀ (ids : List String) (st : LevelState) (k : String), dget k st.nodes = none →
      dget k (ids.foldl (fun st nid => deleteNodeInternal st nid) st).nodes = none := by
  intro ids
  induction ids with
  | nil => intro st k h; exact h
  | cons i is ih =>
    intro st k h
    rw [List.foldl_cons]
    exact ih _ k (delete_internal_preserves_none st i k h)

theorem dget_foldl_delete_mem :
    ∀ (ids : List String) (st : LevelState) (k : String), k ∈ ids →
      dget k (ids.foldl (fun st nid => deleteNodeInternal st nid) st).nodes = none := by
  intro ids
  induction ids with
  | nil => intro st k h; simp at h
  | cons i is ih =>
    intro st k h
    rw [List.foldl_cons]
    rcases List.mem_cons.mp h with h1 | h1
    · subst h1
      apply dget_foldl_delete_none
      by_cases hp : (dget k st.nodes).isSome
      · simp only [deleteNodeInternal, if_pos hp]
        exact dget_derase_self _ _
      · simp only [deleteNodeInternal, if_neg hp]
        exact Option.not_isSome_iff_eq_none.mp hp
    · exact ih _ k h1

theorem mem_pruneToDelete {graceSeconds now : Int} {s : LevelState} {nid : String} :
    nid ∈ pruneToDelete graceSeconds now s ↔
      ∃ n, (nid, n) ∈ s.nodes ∧ n.archived = true ∧
        isReachable s.nodes s.edges nid = false ∧
        orphanExpired graceSeconds now n = true := by
  rw [pruneToDelete, List.mem_filterMap]
  constructor
  · rintro ⟨p, hp, hf⟩
    by_cases hc : (p.2.archived && !isReachable s.nodes s.edges p.1 &&
        orphanExpired graceSeconds now p.2) = true
    · rw [if_pos hc] at hf
      have hp1 : p.1 = nid := Option.some_inj.mp hf
      simp only [Bool.and_eq_true, Bool.not_eq_true'] at hc
      refine ⟨p.2, ?_, hc.1.1, ?_, hc.2⟩
      · rw [← hp1]
        exact hp
      · rw [← hp1]
        exact hc.1.2
    · rw [if_neg hc] at hf
      exact absurd hf (by simp)
  · rintro ⟨n, hmem, h1, h2, h3⟩
    refine ⟨(nid, n), hmem, ?_⟩
    simp [h1, h2, h3]

/-- The orphan-pruner lifecycle, amended with the reachability condition on
deletion: a reachable archived node keeps its entry with `_orphaned_ts`
cleared; an unreachable archived node with no stamp gets stamped `now`; and an
archived node is deleted iff it is unreachable *and* its stamp has expired. -/
theorem prune_orphans_spec (graceSeconds now : Int) (s : LevelState) (nid : String) (n : Node)
    (hnd : (s.nodes.map Prod.fst).Nodup) (hmem : (nid, n) ∈ s.nodes)
    (ha : n.archived = true) :
    (isReachable s.nodes s.edges nid = true →
        dget nid (pruneOrphans graceSeconds now s).nodes =
          some { n with orphanedTs := none })
  ∧ (isReachable s.nodes s.edges nid = false → n.orphanedTs = none →
        dget nid (pruneOrphans graceSeconds now s).nodes =
          some { n with orphanedTs := some now })
  ∧ (dget nid (pruneOrphans graceSeconds now s).nodes = none ↔
        (isReachable s.nodes s.edges nid = false ∧
          ∃ t, n.orphanedTs = some t ∧ now - t > graceSeconds)) := by
  have hdg : dget nid s.nodes = some n := dget_eq_some_of_mem_nodup hmem hnd
  have hmarked : dget nid (pruneMarked now s) =
      some (markOrphan (isReachable s.nodes s.edges nid) now n) := by
    rw [pruneMarked,
      dget_map_keyed (fun k v => markOrphan (isReachable s.nodes s.edges k) now v) nid s.nodes,
      hdg]
    rfl
  have hkeep : (∀ i ∈ pruneToDelete graceSeconds now s, i ≠ nid) →
      dget nid (pruneOrphans graceSeconds now s).nodes =
        some (markOrphan (isReachable s.nodes s.edges nid) now n) := by
    intro hno
    rw [pruneOrphans, dget_foldl_delete_ne _ _ nid hno]
    exact hmarked
  have hnotdel_of : (¬(isReachable s.nodes s.edges nid = false ∧
      orphanExpired graceSeconds now n = true)) →
      ∀ i ∈ pruneToDelete graceSeconds now s, i ≠ nid := by
    intro hno i hi hc
    subst hc
    obtain ⟨m, hm, -, hr2, hexp2⟩ := mem_pruneToDelete.mp hi
    have hmn : m = n := dget_unique_of_nodup hm hmem hnd
    rw [hmn] at hexp2
    exact hno ⟨hr2, hexp2⟩
  refine ⟨?_, ?_, ?_⟩
  · intro hr
    rw [hkeep (hnotdel_of (fun hc => by rw [hr] at hc; exact absurd hc.1 (by decide))), hr]
    simp [markOrphan, ha]
  · intro hr ho
    have hexp : orphanExpired graceSeconds now n = false := by
      simp [orphanExpired, ho]
    rw [hkeep (hnotdel_of (fun hc => by rw [hexp] at hc; exact absurd hc.2 (by decide))), hr]
    simp [markOrphan, ha, ho]
  · constructor
    · intro hdel
      by_cases hcond : (isReachable s.nodes s.edges nid = false ∧
          orphanExpired graceSeconds now n = true)
      · obtain ⟨h1, h2⟩ := hcond
        rcases hot : n.orphanedTs with - | t0
        · rw [orphanExpired, hot] at h2
          simp at h2
        · refine ⟨h1, t0, rfl, ?_⟩
          rw [orphanExpired, hot] at h2
          exact of_decide_eq_true h2
      · rw [hkeep (hnotdel_of hcond)] at hdel
        exact absurd hdel (by simp)
    · rintro ⟨h1, t0, hot, hgt⟩
      have h2 : orphanExpired graceSeconds now n = true := by
        rw [orphanExpired, hot]
        exact decide_eq_true hgt
      have hmemdel : nid ∈ pruneToDelete graceSeconds now s :=
        mem_pruneToDelete.mpr ⟨n, hmem, ha, h1, h2⟩
      rw [pruneOrphans]
      exact dget_foldl_delete_mem _ _ nid hmemdel

/-- Active `a`, archived `b` with an expired orphan stamp, but an edge
`a → b` keeps `b` reachable. -/
def c7State : LevelState :=
  { nodes := [("a", { id := "a", gist := "" }),
              ("b", { id := "b", gist := "", archived := true, orphanedTs := some 0 })],
    edges := [(("a", "b", "uses"), { fromRef := "a", toRef := "b", rel := "uses" })] }

/-- C7's deletion condition fails as literally stated: `b`'s stamp is set and
expired (`now − 0 > grace`), yet the pruner does *not* delete `b` — it is
reachable from the active `a`, so the stamp is cleared instead. -/
theorem prune_orphans_cex :
    ((1000 : Int) - 0 > 10) ∧
    dget "b" (pruneOrphans 10 1000 c7State).nodes =
      some { id := "b", gist := "", archived := true, orphanedTs := none } := by
  decide

/-- Like `c7State` but with no edge: `b` is an expired orphan. -/
def c7State2 : LevelState :=
  { nodes := [("a", { id := "a", gist := "" }),
              ("b", { id := "b", gist := "", archived := true, orphanedTs := some 0 })],
    edges := [] }

theorem prune_orphans_spec_witness :
    dget "b" (pruneOrphans 10 1000 c7State2).nodes = none :=
  ((prune_orphans_spec 10 1000 c7State2 "b"
      { id := "b", gist := "", archived := true, orphanedTs := some 0 }
      (by decide) (by decide) rfl).2.2).mpr ⟨by decide, 0, rfl, by decide⟩

/-! ## C8 — the read view never leaks internal flags -/

/-- The internal-flag invariant: a node carrying an `_orphaned_ts` stamp is
archived. -/
def NodesFlagWF (l : NodeMap) : Prop :=
  ∀ p ∈ l, p.2.orphanedTs ≠ none → p.2.archived = true

theorem wf_dset {l : NodeMap} {k : String} {v : Node} (hW : NodesFlagWF l)
    (hv : v.orphanedTs ≠ none → v.archived = true) : NodesFlagWF (dset k v l) := by
  intro p hp
  rcases mem_dset hp with h | h
  · rw [h]
    exact hv
  · exact hW p h

theorem wf_filter {l : NodeMap} (f : String × Node → Bool) (hW : NodesFlagWF l) :
    NodesFlagWF (l.filter f) :=
  fun p hp => hW p (List.mem_filter.mp hp).1

theorem wf_derase {l : NodeMap} (k : String) (hW : NodesFlagWF l) :
    NodesFlagWF (derase k l) :=
  wf_filter _ hW

theorem wf_dmodify {l : NodeMap} {k : String} {f : Node → Node} (hW : NodesFlagWF l)
    (hf : ∀ v, (v.orphanedTs ≠ none → v.archived = true) →
      ((f v).orphanedTs ≠ none → (f v).archived = true)) :
    NodesFlagWF (dmodify k f l) := by
  intro p hp
  rcases mem_dmodify hp with h | ⟨v, hvmem, hpe⟩
  · exact hW p h
  · rw [hpe]
    exact hf v (hW (k, v) hvmem)

theorem wf_archiveLoop (target : Int) :
    ∀ (pending : List (String × ℚ)) (nodes : NodeMap) (est : Int) (acc : List String),
      NodesFlagWF nodes → NodesFlagWF (archiveLoop target pending nodes est acc).1 := by
  intro pending
  induction pending with
  | nil => intro nodes est acc hW; exact hW
  | cons q rest ih =>
    intro nodes est acc hW
    by_cases hb : est ≤ target
    · simp only [archiveLoop, if_pos hb]
      exact hW
    · rcases hdq : dget q.1 nodes with - | n
      · simp only [archiveLoop, if_neg hb, hdq]
        exact ih _ _ _ hW
      · by_cases han : n.archived
        · simp only [archiveLoop, if_neg hb, hdq, if_pos han]
          exact ih _ _ _ hW
        · simp only [archiveLoop, if_neg hb, hdq, if_neg han]
          exact ih _ _ _ (wf_dmodify hW (fun v hv hno => rfl))

theorem wf_markOrphan (reach : Bool) (now : Int) (n : Node)
    (hn : n.orphanedTs ≠ none → n.archived = true) :
    (markOrphan reach now n).orphanedTs ≠ none → (markOrphan reach now n).archived = true := by
  rw [markOrphan]
  by_cases harch : n.archived
  · rw [if_neg (by simp [harch])]
    by_cases hr : reach
    · rw [if_pos hr]
      simp
    · rw [if_neg hr]
      rcases hot : n.orphanedTs with - | t0
      · intro hx
        exact harch
      · intro hx
        exact harch
  · have harch' : n.archived = false := by simpa using harch
    rw [if_pos (by simp [harch'])]
    exact hn

theorem wf_pruneMarked (now : Int) (s : LevelState) (hW : NodesFlagWF s.nodes) :
    NodesFlagWF (pruneMarked now s) := by
  intro p hp
  rw [pruneMarked] at hp
  rw [List.mem_map] at hp
  obtain ⟨q, hq, hqe⟩ := hp
  rw [← hqe]
  exact wf_markOrphan _ now q.2 (hW q hq)

theorem wf_deleteNodeInternal (st : LevelState) (i : String) (hW : NodesFlagWF st.nodes) :
    NodesFlagWF (deleteNodeInternal st i).nodes := by
  by_cases hp : (dget i st.nodes).isSome
  · simp only [deleteNodeInternal, if_pos hp]
    exact wf_derase i hW
  · simp only [deleteNodeInternal, if_neg hp]
    exact hW

theorem wf_foldl_delete :
    ∀ (ids : List String) (st : LevelState), NodesFlagWF st.nodes →
      NodesFlagWF ((ids.foldl (fun st nid => deleteNodeInternal st nid) st)).nodes := by
  intro ids
  induction ids with
  | nil => intro st hW; exact hW
  | cons i is ih =>
    intro st hW
    rw [List.foldl_cons]
    exact ih _ (wf_deleteNodeInternal st i hW)

theorem wf_step {s s' : LevelState} (h : LStep s s') (hW : NodesFlagWF s.nodes) :
    NodesFlagWF s'.nodes := by
  cases h with
  | putN s nid gist touches notes sid now =>
    exact wf_dset hW (fun hno => absurd rfl hno)
  | putE s f t r notes sid now => exact hW
  | delN s nid =>
    by_cases hp : (dget nid s.nodes).isSome
    · simp only [deleteNode, if_pos hp]
      exact wf_deleteNodeInternal s nid hW
    · simp only [deleteNode, if_neg hp]
      exact hW
  | delE s f t r =>
    by_cases hp : (dget (f, t, r) s.edges).isSome
    · simp only [deleteEdge, if_pos hp]
      exact hW
    · simp only [deleteEdge, if_neg hp]
      exact hW
  | recallN s nid sid now =>
    rcases hdg : dget nid s.nodes with - | n
    · simp only [recallNode, hdg]
      exact hW
    · by_cases ha : n.archived
      · simp only [recallNode, hdg, if_pos ha]
        exact wf_dmodify hW (fun v hv hno => absurd rfl hno)
      · simp only [recallNode, hdg, if_neg ha]
        exact hW
  | compactS maxTokens graceSeconds now s =>
    rw [applyCompact, compactIfNeeded]
    by_cases h1 : (estimateGraph s.nodes s.edges false : Int) ≤ maxTokens
    · rw [if_pos h1]
      exact hW
    · rw [if_neg h1]
      by_cases h2 : (scoreAll graceSeconds now s.nodes s.edges s.versions).isEmpty
      · rw [if_pos h2]
        exact hW
      · rw [if_neg h2]
        exact wf_archiveLoop _ _ _ _ _ hW
  | pruneS graceSeconds now s =>
    rw [pruneOrphans]
    exact wf_foldl_delete _ _ (wf_pruneMarked now s hW)

theorem reachable_wf {s : LevelState} (h : ReachableState s) : NodesFlagWF s.nodes := by
  induction h with
  | empty => intro p hp; simp at hp
  | step hr hstep ih => exact wf_step hstep ih

theorem readLevel_nodes_mem (s : LevelState) (n : Node) :
    n ∈ (readLevel s).nodes ↔ ∃ nid, (nid, n) ∈ s.nodes ∧ n.archived = false := by
  constructor
  · intro h
    rw [readLevel, List.mem_map] at h
    obtain ⟨p, hp, hpn⟩ := h
    rw [List.mem_filter] at hp
    refine ⟨p.1, ?_, ?_⟩
    · rw [← hpn]
      exact hp.1
    · rw [← hpn]
      simpa using hp.2
  · rintro ⟨nid, hmem, hb⟩
    rw [readLevel, List.mem_map]
    refine ⟨(nid, n), ?_, rfl⟩
    rw [List.mem_filter]
    exact ⟨hmem, by simp [hb]⟩

theorem readLevel_edges_mem (s : LevelState) (e : Edge) :
    e ∈ (readLevel s).edges ↔
      ((∃ k, (k, e) ∈ s.edges) ∧
        (isActive s.nodes e.fromRef = true ∨ isActive s.nodes e.toRef = true)) := by
  constructor
  · intro h
    rw [readLevel, List.mem_filter] at h
    obtain ⟨h1, h2⟩ := h
    rw [List.mem_map] at h1
    obtain ⟨p, hp, hpe⟩ := h1
    refine ⟨⟨p.1, ?_⟩, ?_⟩
    · rw [← hpe]
      exact hp
    · simpa using h2
  · rintro ⟨⟨k, hmem⟩, hact⟩
    rw [readLevel, List.mem_filter]
    constructor
    · rw [List.mem_map]
      exact ⟨(k, e), hmem, rfl⟩
    · simpa using hact

/-- In every state reachable from the empty store by the public operations,
`read()` returns only nodes with both internal flags absent, surfaces a node
iff it is not archived, and surfaces an edge iff at least one endpoint is an
active node of the level. -/
theorem read_view_spec (s : LevelState) (h : ReachableState s) :
    (∀ n ∈ (readLevel s).nodes, n.archived = false ∧ n.orphanedTs = none)
  ∧ (∀ n : Node, n ∈ (readLevel s).nodes ↔ ∃ nid, (nid, n) ∈ s.nodes ∧ n.archived = false)
  ∧ (∀ e : Edge, e ∈ (readLevel s).edges ↔
      ((∃ k, (k, e) ∈ s.edges) ∧
        (isActive s.nodes e.fromRef = true ∨ isActive s.nodes e.toRef = true))) := by
  refine ⟨?_, fun n => readLevel_nodes_mem s n, fun e => readLevel_edges_mem s e⟩
  intro n hn
  obtain ⟨nid, hmem, hb⟩ := (readLevel_nodes_mem s n).mp hn
  refine ⟨hb, ?_⟩
  by_contra hno
  have harch := reachable_wf h (nid, n) hmem hno
  rw [hb] at harch
  exact absurd harch (by decide)

/-- The store after one `put_node` on the empty level. -/
def c8State : LevelState := (putNode {} "x" "g" [] [] none 5).1

theorem read_view_spec_witness :
    ({ id := "x", gist := "g" } : Node) ∈ (readLevel c8State).nodes ∧
    ({ id := "x", gist := "g" } : Node).archived = false ∧
    ({ id := "x", gist := "g" } : Node).orphanedTs = none :=
  ⟨by decide,
    (read_view_spec c8State (ReachableState.step ReachableState.empty
      (LStep.putN {} "x" "g" [] [] none 5))).1 { id := "x", gist := "g" } (by decide)⟩

end KG
